import Mathlib

/-!
Verification development for the `rat` boilerplate manager.

The Go sources are shallowly embedded below.  Paths, file names and file
contents are modelled as lists of characters (`Str`), matching Go's view of
strings as flat byte sequences.  Pure helpers from the Go standard library
that the program relies on (`strings.TrimPrefix`, `strings.TrimSuffix`,
`strings.Join`, `path/filepath.Clean`, `path/filepath.Join`) are reproduced
here on that representation; the functions of the repository itself
(`blplList`, `selectBlpl`, `runSelect`, `copyDir` and the walk callback of
`copyDir`) are translated from `src/run.go` (and, where the claim cites it,
from the `CLI` variant in `src/unnamed/part_000`).  Filesystem effects are
made explicit: directory trees are inductive values, the outcomes of the
fallible OS calls (`os.Mkdir`, `os.Open`, `os.Create`) are supplied by an
oracle, and the destination writes performed by a run are collected in a
list of operations.
-/

namespace Rat

/-- Strings are modelled as lists of characters (Go strings are flat byte
sequences; all operations the program performs are byte-wise). -/
abbrev Str := List Char

/-- Model of Go `strings.TrimPrefix`: drop `pre` from the front of `s` when
`s` starts with `pre`, otherwise return `s` unchanged. -/
def trimPrefix (s pre : Str) : Str :=
  if pre.isPrefixOf s then s.drop pre.length else s

/-- Model of Go `strings.TrimSuffix`: drop `suf` from the end of `s` when
`s` ends with `suf`, otherwise return `s` unchanged. -/
def trimSuffix (s suf : Str) : Str :=
  if suf.isSuffixOf s then s.take (s.length - suf.length) else s

/-- Model of Go `strings.Join(list, "\n")` as used by `selectBlpl` to feed
the catalog to the selector subprocess. -/
def nlJoin : List Str → Str
  | [] => []
  | [x] => x
  | x :: y :: rest => x ++ '\n' :: nlJoin (y :: rest)

/-- Split a character list at every `'/'` (helper for the model of
`path/filepath.Clean`).  The result is always nonempty. -/
def splitSlash : Str → List Str
  | [] => [[]]
  | c :: rest =>
    match splitSlash rest with
    | [] => [[]]
    | h :: t => if c = '/' then [] :: h :: t else (c :: h) :: t

/-- Join path components with `'/'` separators (inverse of `splitSlash` on
slash-free components). -/
def joinComps : List Str → Str
  | [] => []
  | [c] => c
  | c :: d :: rest => c ++ '/' :: joinComps (d :: rest)

/-- Component pass of Go `path/filepath.Clean` (Unix rules): drop empty and
`"."` components; a `".."` pops the previous component, except that in a
rooted path a leading `".."` is dropped and in a relative path `".."`
components that cannot be popped accumulate at the front. -/
def cleanAux (rooted : Bool) : List Str → List Str → List Str
  | acc, [] => acc.reverse
  | acc, c :: rest =>
    if c = [] ∨ c = ['.'] then cleanAux rooted acc rest
    else if c = ['.', '.'] then
      match acc with
      | [] => if rooted then cleanAux rooted [] rest
              else cleanAux rooted [['.', '.']] rest
      | a :: as =>
        if a = ['.', '.'] then cleanAux rooted (['.', '.'] :: a :: as) rest
        else cleanAux rooted as rest
    else cleanAux rooted (c :: acc) rest

/-- Model of Go `path/filepath.Clean` on Unix: shortest equivalent path. -/
def cleanL (cs : Str) : Str :=
  if cs = [] then ['.']
  else
    let rooted := cs.head? = some '/'
    let comps := cleanAux rooted [] (splitSlash cs)
    if rooted then '/' :: joinComps comps
    else if comps = [] then ['.']
    else joinComps comps

/-- Model of Go `path/filepath.Join(a, b)` on Unix: join the nonempty
arguments with a slash and clean the result. -/
def joinPath (a b : Str) : Str :=
  if a = [] ∧ b = [] then []
  else if a = [] then cleanL b
  else cleanL (a ++ '/' :: b)

/-- Byte-wise lexicographic comparison on character lists, the order Go's
`sort` package uses for `string` comparison (`s < t`), here in its
reflexive form. -/
def lexLe : Str → Str → Bool
  | [], _ => true
  | _ :: _, [] => false
  | x :: xs, y :: ys => if x = y then lexLe xs ys else decide (x < y)

/-- Name ordering on directory entries: the comparison by `Name()` that
`ioutil.ReadDir` (and the `readDirNames` step of `path/filepath.Walk`)
sorts with. -/
def nameLe {α : Type} (p q : Str × α) : Prop := lexLe p.1 q.1 = true

instance {α : Type} : DecidableRel (@nameLe α) := fun p q =>
  inferInstanceAs (Decidable (lexLe p.1 q.1 = true))

/-- Sort an association list by name.  `ioutil.ReadDir` (and the
`readDirNames` step of `path/filepath.Walk`) return directory entries
sorted by file name; this produces that sorted permutation (distinct names
in a directory make it the unique one). -/
def sortByName {α : Type} (l : List (Str × α)) : List (Str × α) :=
  List.insertionSort nameLe l

/-- File metadata as seen through `os.FileInfo`: the two pieces `copyDir`
reads are `IsDir()` and `Mode()`. -/
structure FInfo where
  isDir : Bool
  mode : Nat
deriving DecidableEq

mutual
/-- A filesystem subtree: a regular file with its contents and mode, or a
directory with its mode and named entries. -/
inductive FsTree : Type where
  | file (content : Str) (mode : Nat) : FsTree
  | dir (mode : Nat) (entries : FsEntries) : FsTree
/-- Named entries of a directory, in raw (on-disk) order. -/
inductive FsEntries : Type where
  | nil : FsEntries
  | cons (name : Str) (t : FsTree) (rest : FsEntries) : FsEntries
end

/-- List view of directory entries. -/
def FsEntries.toList : FsEntries → List (Str × FsTree)
  | .nil => []
  | .cons n t rest => (n, t) :: rest.toList

/-- Rebuild directory entries from a list. -/
def entriesOfList : List (Str × FsTree) → FsEntries
  | [] => .nil
  | (n, t) :: rest => .cons n t (entriesOfList rest)

/-- The `os.FileInfo` data of the root of a subtree. -/
def FsTree.info : FsTree → FInfo
  | .file _ m => ⟨false, m⟩
  | .dir m _ => ⟨true, m⟩

mutual
/-- Recursively sort every directory's entries by name, mirroring the fact
that `path/filepath.Walk` reads each directory with `readDirNames`, which
sorts the names before recursing. -/
def sortTree : FsTree → FsTree
  | .file c m => .file c m
  | .dir m es => .dir m (entriesOfList (sortByName (sortEntriesList es)))
/-- Sort the subtrees of each entry (list form). -/
def sortEntriesList : FsEntries → List (Str × FsTree)
  | .nil => []
  | .cons n t rest => (n, sortTree t) :: sortEntriesList rest
end

mutual
/-- The sequence of `(path, FileInfo)` arguments with which
`path/filepath.Walk`, started at path `p` on subtree `t`, invokes its
callback when no I/O error occurs: the entry itself first, then (for a
directory) each child at `filepath.Join(p, name)` in order. -/
def walkVisits : Str → FsTree → List (Str × FInfo)
  | p, .file _ m => [(p, ⟨false, m⟩)]
  | p, .dir m es => (p, ⟨true, m⟩) :: walkVisitsEntries p es
/-- Visit sequence of a directory's entries. -/
def walkVisitsEntries : Str → FsEntries → List (Str × FInfo)
  | _, .nil => []
  | p, .cons n t rest => walkVisits (joinPath p n) t ++ walkVisitsEntries p rest
end

/-- Visit sequence of `path/filepath.Walk(src, ...)` over tree `t`: each
directory's entries are read sorted by name (`readDirNames`). -/
def walkModel (src : Str) (t : FsTree) : List (Str × FInfo) :=
  walkVisits src (sortTree t)

/-- Outcomes of the fallible OS calls `copyDir` performs, supplied from the
outside: whether `os.Mkdir`, `os.Open` and `os.Create` fail at a given
path. -/
structure Oracle where
  mkdirFails : Str → Bool
  openFails : Str → Bool
  createFails : Str → Bool

/-- The oracle of an unobstructed run: every OS call succeeds. -/
def okOracle : Oracle :=
  { mkdirFails := fun _ => false, openFails := fun _ => false,
    createFails := fun _ => false }

/-- Errors the walk callback of `copyDir` can return (the `error` values of
the failed OS calls it propagates). -/
inductive OsErr : Type where
  | mkdirFailed (p : Str)
  | openFailed (p : Str)
  | createFailed (p : Str)
deriving DecidableEq

/-- A destination-side filesystem write performed by `copyDir`. -/
inductive DstOp : Type where
  | mkdir (path : Str) (mode : Nat)
  | create (path : Str) (content : Str)
deriving DecidableEq

/-- Bytes that `io.Copy(dstFile, srcFile)` transfers when `srcFile` is a
handle on the root of `t`: the whole content for a regular file; for a
directory, the first `Read` fails (`EISDIR`), so zero bytes are written.
`copyDir` discards `io.Copy`'s return values, so the read error is lost. -/
def ioCopyFrom : FsTree → Str
  | .file c _ => c
  | .dir _ _ => []

/-- Result of one invocation of the walk callback: it returns an error or
`nil` (with the destination writes it performed), or the process panics
because a method was called on a nil `os.FileInfo` interface. -/
inductive CbResult : Type where
  | panic
  | err (e : OsErr)
  | ok (ops : List DstOp)
deriving DecidableEq

/-- The anonymous callback `copyDir` passes to `filepath.Walk`
(src/run.go): trim the `src` prefix from `path`; an empty remainder (the
source root) is skipped; for a directory, `os.Mkdir` the joined destination
path with the source mode; for a file, `os.Open(src)` (the source ROOT
path, as written in the code), `os.Create` the joined destination path,
then `io.Copy` with its result discarded.  The `err` argument of the
callback is never consulted; `info.IsDir()` on a nil `info` is a panic. -/
def walkFn (o : Oracle) (srcTree : FsTree) (dst src : Str)
    (path : Str) (info : Option FInfo) (_werr : Option Unit) : CbResult :=
  let rel := trimPrefix path src
  if rel = [] then .ok []
  else
    match info with
    | none => .panic
    | some i =>
      if i.isDir then
        let dstDir := joinPath dst rel
        if o.mkdirFails dstDir then .err (.mkdirFailed dstDir)
        else .ok [.mkdir dstDir i.mode]
      else
        if o.openFails src then .err (.openFailed src)
        else
          let dstFilePath := joinPath dst rel
          if o.createFails dstFilePath then .err (.createFailed dstFilePath)
          else .ok [.create dstFilePath (ioCopyFrom srcTree)]

/-- Result of a whole `filepath.Walk` run. -/
inductive RunRes : Type where
  | ok
  | err (e : OsErr)
  | panicked
deriving DecidableEq

/-- Run the walk callback over a visit sequence: a non-nil return value
aborts the remainder of the walk (the callback never returns `SkipDir`);
writes performed before the abort remain. -/
def runVisits (o : Oracle) (srcTree : FsTree) (dst src : Str) :
    List (Str × FInfo) → RunRes × List DstOp
  | [] => (.ok, [])
  | (p, i) :: rest =>
    match walkFn o srcTree dst src p (some i) none with
    | .panic => (.panicked, [])
    | .err e => (.err e, [])
    | .ok ops =>
      let r := runVisits o srcTree dst src rest
      (r.1, ops ++ r.2)

/-- Model of `copyDir(dst, src)` from src/run.go on source tree `t`:
`os.Mkdir(dst, 0755)` with its error discarded, then `filepath.Walk(src,
...)` with the callback above.  Returns the walk's result together with
all destination writes performed. -/
def copyDir (o : Oracle) (dst src : Str) (t : FsTree) : RunRes × List DstOp :=
  let top : List DstOp := if o.mkdirFails dst then [] else [.mkdir dst 493]
  let r := runVisits o t dst src (walkModel src t)
  (r.1, top ++ r.2)

/-- Errors of the catalog (`blplList`): `ioutil.ReadDir` failing, or the
root containing zero entries. -/
inductive CatErr : Type where
  | rootUnreadable
  | empty
deriving DecidableEq

/-- Model of `ioutil.ReadDir`: the entries of the directory sorted by file
name (this sort is performed by `ReadDir` itself). -/
def readDir (es : List (Str × FsTree)) : List (Str × FsTree) :=
  sortByName es

/-- Model of `blplList(ratRoot)` from src/run.go.  The root directory is
`none` when it cannot be listed (`ReadDir` returns an error, propagated),
otherwise its raw entry list.  Zero entries is an error; otherwise the
result is the `Name()` of every entry, in `ReadDir` order. -/
def blplList (root : Option (List (Str × FsTree))) : Except CatErr (List Str) :=
  match root with
  | none => .error .rootUnreadable
  | some es =>
    let dirs := readDir es
    if dirs.length = 0 then .error .empty
    else .ok (dirs.map Prod.fst)

/-- Lines printed by `showList` / the `--list` branch of `run`
(src/run.go and src/cli.go): the catalog, one name per line, in catalog
order; nothing on error. -/
def showListOutput (root : Option (List (Str × FsTree))) : List Str :=
  match blplList root with
  | .error _ => []
  | .ok l => l

/-- Whether an entry of the template root is itself a directory. -/
def FsTree.isDirB : FsTree → Bool
  | .file _ _ => false
  | .dir _ _ => true

/-- Number of child directories of the template root (the quantity claim C4
speaks about). -/
def numChildDirs (es : List (Str × FsTree)) : Nat :=
  (es.filter (fun e => e.2.isDirB)).length

/-- Errors of selector resolution. -/
inductive SelErr : Type where
  | notConfigured
  | cmdNotFound (c : Str)
  | runFailed
  | catalogErr (e : CatErr)
  | noSelection
deriving DecidableEq

/-- Observable selector-side effects, recorded in order: the `exec.LookPath`
probe (`cmdExists`), spawning the subprocess, and listing the catalog. -/
inductive SelEvent : Type where
  | listedCatalog
  | lookPath (c : Str)
  | spawned (c : Str)
deriving DecidableEq

/-- Behaviour of the outside world during selection: whether
`exec.LookPath` finds a command, and what a spawned subprocess does with
its stdin (whether `cmd.Run` returns nil, and the bytes captured on
stdout). -/
structure SelEnv where
  cmdExistsB : Str → Bool
  runB : Str → Str → Bool × Str

/-- Model of `(c *CLI) runSelect` from src/unnamed/part_000 (lines 237-255),
the variant cited by claim C5: an empty configured command is an error; then
`cmdExists` (a PATH lookup) is checked before any subprocess is started;
then the command is spawned through the platform shell with `r` as stdin
and the captured stdout returned, `cmd.Run`'s non-nil error propagated. -/
def runSelect (env : SelEnv) (selectCmd stdin : Str) :
    Except SelErr Str × List SelEvent :=
  if selectCmd = [] then (.error .notConfigured, [])
  else if env.cmdExistsB selectCmd = false then
    (.error (.cmdNotFound selectCmd), [.lookPath selectCmd])
  else
    match env.runB selectCmd stdin with
    | (true, out) => (.ok out, [.lookPath selectCmd, .spawned selectCmd])
    | (false, _) => (.error .runFailed, [.lookPath selectCmd, .spawned selectCmd])

/-- Model of `selectBlpl(ratRoot, ratSelectCmd)` from src/run.go (lines
101-118): an empty configured command is an error; the catalog is listed
(its error propagated); the names are joined with newlines and fed to
`runSelect`; a run error is propagated; an empty captured buffer is the
no-selection error; otherwise one trailing newline is stripped with
`strings.TrimSuffix` and the rest returned. -/
def selectBlpl (env : SelEnv) (root : Option (List (Str × FsTree)))
    (ratSelectCmd : Str) : Except SelErr Str × List SelEvent :=
  if ratSelectCmd = [] then (.error .notConfigured, [])
  else
    match blplList root with
    | .error e => (.error (.catalogErr e), [.listedCatalog])
    | .ok list =>
      let r := runSelect env ratSelectCmd (nlJoin list)
      match r.1 with
      | .error e => (.error e, .listedCatalog :: r.2)
      | .ok buf =>
        if buf = [] then (.error .noSelection, .listedCatalog :: r.2)
        else (.ok (trimSuffix buf ['\n']), .listedCatalog :: r.2)

/-- Model of the boilerplate-selection block of `run` (src/run.go lines
43-58): a non-empty caller-supplied name is joined to the root directly;
only an empty name goes through `selectBlpl`, whose resolved name is then
joined to the root. -/
def resolveSrcPath (env : SelEnv) (root : Option (List (Str × FsTree)))
    (ratRoot ratSelectCmd boilerplateName : Str) :
    Except SelErr Str × List SelEvent :=
  if boilerplateName ≠ [] then (.ok (joinPath ratRoot boilerplateName), [])
  else
    match selectBlpl env root ratSelectCmd with
    | (.error e, evs) => (.error e, evs)
    | (.ok bname, evs) => (.ok (joinPath ratRoot bname), evs)

/-- A source tree holding one regular file `a` with contents `hi`. -/
def exTreeA : FsTree := .dir 493 (.cons ['a'] (.file ['h', 'i'] 420) .nil)

/-- C9 (amended): when `filepath.Walk` hands the callback a non-nil error
with a nil `FileInfo`, the callback ignores the error argument; for every
entry other than the source root it then calls `IsDir` on the nil interface
and panics, while for the source root entry (relative path empty) it
returns nil before touching `info`, silently swallowing the walk error. -/
theorem walkFn_nil_info_panics_except_root (o : Oracle) (srcTree : FsTree)
    (dst src path : Str) (e : Unit) :
    walkFn o srcTree dst src path none (some e) =
      (if trimPrefix path src = [] then CbResult.ok [] else CbResult.panic) := by
  by_cases h : trimPrefix path src = [] <;> simp [walkFn, h]

/-- C9 counterexample: at the source root entry (the very call
`filepath.Walk` makes when `lstat(src)` fails: path `src`, nil `FileInfo`,
non-nil error) the callback neither panics nor propagates the error — it
returns nil, so the claimed nil-pointer dereference does not occur for this
entry. -/
theorem walkFn_root_error_swallowed :
    walkFn okOracle (.dir 493 .nil) ['/', 'd'] ['/', 's'] ['/', 's']
        none (some ()) = .ok []
      ∧ CbResult.ok [] ≠ CbResult.panic := by
  constructor
  · rfl
  · decide

/-- C1: evaluating `copyDir` at a source tree containing the file `a` with
contents `hi` shows the copy is not byte-for-byte: the destination file is
created with empty contents (the code opens `src` — the source root
directory — instead of the visited file, and discards `io.Copy`'s `EISDIR`
failure), yet the run reports success. -/
theorem copyDir_writes_empty_file :
    copyDir okOracle ['/', 'd'] ['/', 's'] exTreeA
        = (.ok, [.mkdir ['/', 'd'] 493, .create ['/', 'd', '/', 'a'] []])
      ∧ (['h', 'i'] : Str) ≠ ([] : Str) := by
  constructor
  · rfl
  · decide

/-- C8: whenever a non-empty boilerplate name is pre-supplied, `run`'s
selection block resolves to that name joined under the root, with no
catalog listing, no PATH lookup and no selector subprocess, whatever the
catalog state and selector environment are. -/
theorem resolve_presupplied_is_noop (env : SelEnv)
    (root : Option (List (Str × FsTree))) (ratRoot ratSelectCmd name : Str)
    (h : name ≠ []) :
    resolveSrcPath env root ratRoot ratSelectCmd name
      = (.ok (joinPath ratRoot name), []) := by
  simp [resolveSrcPath, h]

/-- C8 witness: with an unreadable catalog, an unconfigured selector command
and a selector environment that would fail every lookup, a pre-supplied
name `b` still resolves directly with no selector events. -/
theorem resolve_presupplied_is_noop_witness :
    (['b'] : Str) ≠ ([] : Str) ∧
    resolveSrcPath ⟨fun _ => false, fun _ _ => (false, [])⟩ none
        ['/', 'r'] [] ['b']
      = (.ok (joinPath ['/', 'r'] ['b']), []) :=
  ⟨by decide, resolve_presupplied_is_noop _ _ _ _ _ (by decide)⟩

/-- Stripping the newline suffix removes exactly the one trailing newline. -/
theorem trimSuffix_newline_append (y : Str) :
    trimSuffix (y ++ ['\n']) ['\n'] = y := by
  have hsuf : (['\n'] : Str).isSuffixOf (y ++ ['\n']) = true := by
    rw [List.isSuffixOf_iff_suffix]
    exact List.suffix_append y ['\n']
  simp only [trimSuffix, hsuf, if_true, List.length_append, List.length_cons,
    List.length_nil, Nat.add_sub_cancel]
  exact List.take_left y ['\n']

/-- A string not ending in a newline passes through `trimSuffix`
unchanged. -/
theorem trimSuffix_newline_of_no_newline (y : Str) (h : y.getLast? ≠ some '\n') :
    trimSuffix y ['\n'] = y := by
  unfold trimSuffix
  by_cases hsuf : (['\n'] : Str).isSuffixOf y
  · exfalso
    rw [List.isSuffixOf_iff_suffix] at hsuf
    obtain ⟨t, ht⟩ := hsuf
    apply h
    rw [← ht]
    exact List.getLast?_concat t
  · simp [hsuf]

/-- C7: after a successful selector run with captured stdout `out`: empty
output is the no-selection error; otherwise the result is `out` with
exactly one trailing newline (if present) stripped and nothing else
changed — `trimSuffix` removes one final newline from a newline-terminated
string and leaves any other string (embedded whitespace included)
untouched. -/
theorem selectBlpl_output_handling (env : SelEnv)
    (root : Option (List (Str × FsTree))) (cmd : Str) (l : List Str)
    (out : Str) (hc : cmd ≠ []) (hl : blplList root = .ok l)
    (he : env.cmdExistsB cmd = true)
    (hr : env.runB cmd (nlJoin l) = (true, out)) :
    (out = [] → (selectBlpl env root cmd).1 = .error .noSelection)
    ∧ (out ≠ [] → (selectBlpl env root cmd).1 = .ok (trimSuffix out ['\n']))
    ∧ (∀ y : Str, trimSuffix (y ++ ['\n']) ['\n'] = y)
    ∧ (∀ y : Str, y.getLast? ≠ some '\n' → trimSuffix y ['\n'] = y) := by
  refine ⟨?_, ?_, trimSuffix_newline_append, trimSuffix_newline_of_no_newline⟩
  · intro hout
    simp [selectBlpl, runSelect, hc, hl, he, hr, hout]
  · intro hout
    simp [selectBlpl, runSelect, hc, hl, he, hr, hout]

/-- C7 witness: a configured, existing selector that captures `p` plus a
trailing newline resolves to `p`; the sibling facts are instantiated at the
same inputs. -/
theorem selectBlpl_output_handling_witness :
    (['c'] : Str) ≠ ([] : Str)
    ∧ blplList (some [(['a'], .file [] 420)]) = .ok [['a']]
    ∧ (SelEnv.mk (fun _ => true) (fun _ _ => (true, ['p', '\n']))).cmdExistsB ['c'] = true
    ∧ (SelEnv.mk (fun _ => true) (fun _ _ => (true, ['p', '\n']))).runB ['c'] (nlJoin [['a']]) = (true, ['p', '\n'])
    ∧ (selectBlpl (SelEnv.mk (fun _ => true) (fun _ _ => (true, ['p', '\n'])))
        (some [(['a'], .file [] 420)]) ['c']).1 = .ok (trimSuffix ['p', '\n'] ['\n']) :=
  ⟨by decide, by rfl, by rfl, by rfl,
    (selectBlpl_output_handling _ _ _ _ _ (by decide) (by rfl) (by rfl)
      (by rfl)).2.1 (by decide)⟩

/-- C5: with the catalog readable, a configured selector command is checked
with a PATH lookup before any subprocess is started: if the lookup fails,
selection fails with the command-not-found error and no subprocess is ever
spawned; if the lookup succeeds but the subprocess exits non-zero,
selection fails with the run error; and a subprocess is only ever spawned
for a command whose PATH lookup succeeded. -/
theorem selectBlpl_path_lookup_up_front (env : SelEnv)
    (root : Option (List (Str × FsTree))) (cmd : Str) (l : List Str)
    (hc : cmd ≠ []) (hl : blplList root = .ok l) :
    (env.cmdExistsB cmd = false →
      (selectBlpl env root cmd).1 = .error (.cmdNotFound cmd)
      ∧ ∀ c, SelEvent.spawned c ∉ (selectBlpl env root cmd).2)
    ∧ (∀ out, env.cmdExistsB cmd = true →
        env.runB cmd (nlJoin l) = (false, out) →
        (selectBlpl env root cmd).1 = .error .runFailed)
    ∧ (∀ c, SelEvent.spawned c ∈ (selectBlpl env root cmd).2 →
        env.cmdExistsB c = true) := by
  refine ⟨?_, ?_, ?_⟩
  · intro hex
    constructor
    · simp [selectBlpl, runSelect, hc, hl, hex]
    · intro c
      simp [selectBlpl, runSelect, hc, hl, hex]
  · intro out hex hr
    simp [selectBlpl, runSelect, hc, hl, hex, hr]
  · intro c
    by_cases hex : env.cmdExistsB cmd = true
    · rcases hrb : env.runB cmd (nlJoin l) with ⟨ok, out⟩
      cases ok
      · simp only [selectBlpl, runSelect, if_neg hc, hl, hex, hrb]
        intro hmem
        simp at hmem
        cases hmem
        exact hex
      · by_cases hout : out = []
        · simp only [selectBlpl, runSelect, if_neg hc, hl, hex, hrb, hout]
          intro hmem
          simp at hmem
          cases hmem
          exact hex
        · simp only [selectBlpl, runSelect, if_neg hc, hl, hex, hrb]
          intro hmem
          simp [hout] at hmem
          cases hmem
          exact hex
    · rw [Bool.not_eq_true] at hex
      intro hmem
      simp [selectBlpl, runSelect, hc, hl, hex] at hmem

/-- C5 witness: with a readable one-entry catalog and a selector command the
PATH lookup cannot find, selection fails with the command-not-found error
(and, by the same theorem, never spawns the subprocess). -/
theorem selectBlpl_path_lookup_up_front_witness :
    (['c'] : Str) ≠ ([] : Str)
    ∧ blplList (some [(['a'], .file [] 420)]) = .ok [['a']]
    ∧ (selectBlpl (SelEnv.mk (fun _ => false) (fun _ _ => (true, ['p'])))
        (some [(['a'], .file [] 420)]) ['c']).1 = .error (.cmdNotFound ['c']) :=
  ⟨by decide, by rfl,
    ((selectBlpl_path_lookup_up_front _ _ _ _ (by decide) (by rfl)).1 (by rfl)).1⟩

/-- The byte-wise lexicographic comparison is total. -/
theorem lexLe_total : ∀ a b : Str, lexLe a b = true ∨ lexLe b a = true := by
  intro a
  induction a with
  | nil => intro b; left; rfl
  | cons x xs ih =>
    intro b
    cases b with
    | nil => right; rfl
    | cons y ys =>
      by_cases hxy : x = y
      · subst hxy
        rcases ih ys with h | h
        · left; simpa [lexLe] using h
        · right; simpa [lexLe] using h
      · rcases lt_trichotomy x y with h | h | h
        · left; simp [lexLe, hxy, h]
        · exact absurd h hxy
        · right
          have hyx : y ≠ x := fun he => hxy he.symm
          simp [lexLe, hyx, h]

/-- The byte-wise lexicographic comparison is transitive. -/
theorem lexLe_trans : ∀ a b c : Str,
    lexLe a b = true → lexLe b c = true → lexLe a c = true := by
  intro a
  induction a with
  | nil => intro b c _ _; rfl
  | cons x xs ih =>
    intro b c hab hbc
    cases b with
    | nil => simp [lexLe] at hab
    | cons y ys =>
      cases c with
      | nil => simp [lexLe] at hbc
      | cons z zs =>
        by_cases hxy : x = y <;> by_cases hyz : y = z
        · subst hxy; subst hyz
          simp only [lexLe, if_pos rfl] at hab hbc ⊢
          exact ih ys zs hab hbc
        · subst hxy
          simp only [lexLe, if_neg hyz] at hbc
          have hlt : x < z := by simpa using hbc
          have hxz : x ≠ z := ne_of_lt hlt
          simp [lexLe, hxz, hlt]
        · subst hyz
          simp only [lexLe, if_neg hxy] at hab
          have hlt : x < y := by simpa using hab
          have hxz : x ≠ y := ne_of_lt hlt
          simp [lexLe, hxz, hlt]
        · simp only [lexLe, if_neg hxy] at hab
          simp only [lexLe, if_neg hyz] at hbc
          have h1 : x < y := by simpa using hab
          have h2 : y < z := by simpa using hbc
          have hlt : x < z := lt_trans h1 h2
          simp [lexLe, ne_of_lt hlt, hlt]

instance {α : Type} : IsTotal (Str × α) nameLe :=
  ⟨fun p q => lexLe_total p.1 q.1⟩

instance {α : Type} : IsTrans (Str × α) nameLe :=
  ⟨fun _ _ _ hab hbc => lexLe_trans _ _ _ hab hbc⟩

/-- Sorting by name permutes the entries. -/
theorem sortByName_perm {α : Type} (l : List (Str × α)) :
    (sortByName l).Perm l :=
  List.perm_insertionSort nameLe l

/-- Sorting by name sorts by name. -/
theorem sortByName_sorted {α : Type} (l : List (Str × α)) :
    (sortByName l).Pairwise nameLe :=
  List.sorted_insertionSort nameLe l

/-- C4 counterexample: a readable, non-empty root whose single entry is a
regular file has zero child directories, yet `blplList` returns one name —
so the catalog does not return one name per child directory. -/
theorem blplList_counts_files_too :
    blplList (some [(['a'], .file [] 420)]) = .ok [['a']]
    ∧ numChildDirs [(['a'], FsTree.file [] 420)] = 0
    ∧ ([['a']] : List Str).length ≠ numChildDirs [(['a'], FsTree.file [] 420)] := by
  refine ⟨rfl, rfl, ?_⟩
  decide

/-- C4 (amended): for every readable non-empty root, `blplList` returns one
name per child entry of any kind (directories and regular files alike) —
a permutation of all the entry names, hence without omissions, and without
duplicates whenever the on-disk names are distinct. -/
theorem blplList_names_of_all_entries (es : List (Str × FsTree)) (h : es ≠ []) :
    ∃ l, blplList (some es) = .ok l ∧ l.Perm (es.map Prod.fst)
      ∧ ((es.map Prod.fst).Nodup → l.Nodup) := by
  have hperm : ((sortByName es).map Prod.fst).Perm (es.map Prod.fst) :=
    (sortByName_perm es).map Prod.fst
  have hlen : (readDir es).length ≠ 0 := by
    have : (readDir es).length = es.length := (sortByName_perm es).length_eq
    rw [this]
    simpa using h
  refine ⟨(sortByName es).map Prod.fst, ?_, hperm, fun hnd => hperm.nodup_iff.mpr hnd⟩
  simp only [blplList, readDir] at hlen ⊢
  rw [if_neg hlen]

/-- C4 witness: a root holding a directory `b` and a regular file `a` has
one child directory but the catalog lists both names. -/
theorem blplList_names_of_all_entries_witness :
    ([(['b'], FsTree.dir 493 .nil), (['a'], FsTree.file [] 420)] :
        List (Str × FsTree)) ≠ []
    ∧ ∃ l, blplList (some [(['b'], FsTree.dir 493 .nil), (['a'], FsTree.file [] 420)]) = .ok l
        ∧ l.Perm ([(['b'], FsTree.dir 493 .nil), (['a'], FsTree.file [] 420)].map Prod.fst)
        ∧ (([(['b'], FsTree.dir 493 .nil), (['a'], FsTree.file [] 420)].map Prod.fst).Nodup → l.Nodup) :=
  ⟨List.cons_ne_nil _ _, blplList_names_of_all_entries _ (List.cons_ne_nil _ _)⟩

/-- C10: every successful catalog listing is sorted in byte-wise
lexicographic order of the entry names (the ordering `ioutil.ReadDir`
guarantees), and the `--list` output prints exactly that list, so both the
printed list and the names piped to the selector appear in sorted order. -/
theorem blplList_sorted_lex (es : List (Str × FsTree)) (l : List Str)
    (h : blplList (some es) = .ok l) :
    l.Pairwise (fun a b => lexLe a b = true)
    ∧ showListOutput (some es) = l := by
  constructor
  · have hl : l = (sortByName es).map Prod.fst := by
      simp only [blplList, readDir] at h
      by_cases hz : (sortByName es).length = 0
      · rw [if_pos hz] at h; cases h
      · rw [if_neg hz] at h
        exact (Except.ok.injEq _ _).mp h.symm |>.symm ▸ rfl
    subst hl
    have hs := sortByName_sorted es
    rw [List.pairwise_map]
    exact hs.imp (fun hab => hab)
  · simp only [showListOutput, h]

/-- C10 witness: a catalog over entries `b`, `a` is listed as `a`, `b`,
sorted. -/
theorem blplList_sorted_lex_witness :
    blplList (some [(['b'], FsTree.dir 493 .nil), (['a'], FsTree.file [] 420)])
        = .ok [['a'], ['b']]
    ∧ ([['a'], ['b']] : List Str).Pairwise (fun a b => lexLe a b = true)
    ∧ showListOutput (some [(['b'], FsTree.dir 493 .nil), (['a'], FsTree.file [] 420)])
        = [['a'], ['b']] :=
  ⟨rfl,
    (blplList_sorted_lex [(['b'], FsTree.dir 493 .nil), (['a'], FsTree.file [] 420)]
      [['a'], ['b']] rfl).1,
    (blplList_sorted_lex [(['b'], FsTree.dir 493 .nil), (['a'], FsTree.file [] 420)]
      [['a'], ['b']] rfl).2⟩

/-- Running the walk past a block of entries that all return nil appends
their writes and leaves the final result to the remaining entries. -/
theorem runVisits_append (o : Oracle) (s : FsTree) (dst src : Str)
    (pre rest : List (Str × FInfo))
    (hpre : ∀ q ∈ pre, ∃ ops, walkFn o s dst src q.1 (some q.2) none = .ok ops) :
    runVisits o s dst src (pre ++ rest)
      = ((runVisits o s dst src rest).1,
         (runVisits o s dst src pre).2 ++ (runVisits o s dst src rest).2) := by
  induction pre with
  | nil => simp [runVisits]
  | cons q pre ih =>
    obtain ⟨ops, hq⟩ := hpre q (List.mem_cons_self q pre)
    have hrest := ih (fun r hr => hpre r (List.mem_cons_of_mem _ hr))
    rcases q with ⟨p, i⟩
    simp only [List.cons_append, runVisits, hq, List.append_eq, hrest,
      List.append_assoc]

/-- With an unobstructed oracle every callback invocation returns nil, with
the write the entry calls for. -/
theorem walkFn_okOracle (s : FsTree) (dst src p : Str) (i : FInfo) :
    walkFn okOracle s dst src p (some i) none
      = .ok (if trimPrefix p src = [] then []
             else if i.isDir then [.mkdir (joinPath dst (trimPrefix p src)) i.mode]
             else [.create (joinPath dst (trimPrefix p src)) (ioCopyFrom s)]) := by
  by_cases h : trimPrefix p src = [] <;> by_cases hd : i.isDir = true <;>
    simp [walkFn, okOracle, h, hd]

/-- With an unobstructed oracle the whole walk reports success — even
though `io.Copy`'s read failure occurs at every file entry (the opened
handle is the source root directory), because its error is discarded. -/
theorem runVisits_okOracle_ok (s : FsTree) (dst src : Str)
    (visits : List (Str × FInfo)) :
    (runVisits okOracle s dst src visits).1 = .ok := by
  induction visits with
  | nil => rfl
  | cons q rest ih =>
    rcases q with ⟨p, i⟩
    simp only [runVisits, walkFn_okOracle]
    exact ih

/-- C2 (amended): when the `os.Open` performed for a file entry fails (the
path opened is the source root, per the C1 defect) or the `os.Create` of
the destination file fails, `copyDir` returns that error and abandons the
remainder of the walk while the writes already performed remain in place
(no rollback).  A failure of the byte-copy itself, however, is ignored:
`io.Copy`'s error is discarded, so it neither aborts the walk nor surfaces
in the result — an unobstructed run always reports success even though the
byte-copy fails at every file entry. -/
theorem copyDir_error_propagation (o : Oracle) (dst src : Str) (t : FsTree)
    (pre post : List (Str × FInfo)) (p : Str) (i : FInfo)
    (hw : walkModel src t = pre ++ (p, i) :: post)
    (hd : i.isDir = false)
    (hrel : trimPrefix p src ≠ [])
    (hpre : ∀ q ∈ pre, ∃ ops, walkFn o t dst src q.1 (some q.2) none = .ok ops) :
    (o.openFails src = true →
       copyDir o dst src t
         = (.err (.openFailed src),
            (if o.mkdirFails dst then [] else [.mkdir dst 493])
              ++ (runVisits o t dst src pre).2))
    ∧ (o.openFails src = false →
       o.createFails (joinPath dst (trimPrefix p src)) = true →
       copyDir o dst src t
         = (.err (.createFailed (joinPath dst (trimPrefix p src))),
            (if o.mkdirFails dst then [] else [.mkdir dst 493])
              ++ (runVisits o t dst src pre).2))
    ∧ (∀ (dst' src' : Str) (t' : FsTree),
        (copyDir okOracle dst' src' t').1 = .ok) := by
  refine ⟨?_, ?_, ?_⟩
  · intro hopen
    simp only [copyDir, hw, runVisits_append o t dst src pre _ hpre]
    have hcb : walkFn o t dst src p (some i) none = .err (.openFailed src) := by
      simp [walkFn, hrel, hd, hopen]
    simp [runVisits, hcb]
  · intro hopen hcreate
    simp only [copyDir, hw, runVisits_append o t dst src pre _ hpre]
    have hcb : walkFn o t dst src p (some i) none
        = .err (.createFailed (joinPath dst (trimPrefix p src))) := by
      simp [walkFn, hrel, hd, hopen, hcreate]
    simp [runVisits, hcb]
  · intro dst' src' t'
    simp only [copyDir]
    exact runVisits_okOracle_ok t' dst' src' (walkModel src' t')

/-- A source tree holding one regular file `b` with contents `xy`. -/
def exTreeB : FsTree := .dir 493 (.cons ['b'] (.file ['x', 'y'] 420) .nil)

/-- C2 counterexample: a run in which the byte-copy fails — `io.Copy` reads
from the opened source-root directory handle, transferring zero of the two
source bytes — yet `copyDir` returns nil instead of a copy error: a failed
byte-copy does not abort the walk and no copy-failure error exists in the
result. -/
theorem copyDir_copy_failure_not_surfaced :
    (copyDir okOracle ['/', 'e'] ['/', 't'] exTreeB).1 = .ok
    ∧ ioCopyFrom exTreeB = []
    ∧ (['x', 'y'] : Str) ≠ ([] : Str) := by
  refine ⟨rfl, rfl, ?_⟩
  decide

/-- An oracle in which opening any source path fails. -/
def openFailOracle : Oracle :=
  { mkdirFails := fun _ => false, openFails := fun _ => true,
    createFails := fun _ => false }

/-- C2 witness: on the one-file tree, with `os.Open` failing, the walk
aborts with the open error right after the root was skipped, keeping the
writes made so far. -/
theorem copyDir_error_propagation_witness :
    walkModel ['/', 's'] exTreeA
      = [(['/', 's'], ⟨true, 493⟩)] ++ (['/', 's', '/', 'a'], ⟨false, 420⟩) :: []
    ∧ (FInfo.mk false 420).isDir = false
    ∧ trimPrefix ['/', 's', '/', 'a'] ['/', 's'] ≠ []
    ∧ openFailOracle.openFails ['/', 's'] = true
    ∧ copyDir openFailOracle ['/', 'd'] ['/', 's'] exTreeA
        = (.err (.openFailed ['/', 's']),
           (if openFailOracle.mkdirFails ['/', 'd'] then []
            else [.mkdir ['/', 'd'] 493])
             ++ (runVisits openFailOracle exTreeA ['/', 'd'] ['/', 's']
                  [(['/', 's'], ⟨true, 493⟩)]).2) :=
  ⟨rfl, rfl, by decide, rfl,
    (copyDir_error_propagation openFailOracle ['/', 'd'] ['/', 's'] exTreeA
      [(['/', 's'], ⟨true, 493⟩)] [] ['/', 's', '/', 'a'] ⟨false, 420⟩
      rfl rfl (by decide)
      (fun q hq => by
        rw [List.mem_singleton] at hq
        subst hq
        exact ⟨[], rfl⟩)).1 rfl⟩

/-- An oracle in which every `os.Mkdir` fails. -/
def mkdirFailOracle : Oracle :=
  { mkdirFails := fun _ => true, openFails := fun _ => false,
    createFails := fun _ => false }

/-- C3 counterexample: with the destination uncreatable (`os.Mkdir` fails
everywhere) and an empty source directory, `copyDir` still returns nil and
creates nothing — it does not fail with a destination-creation error. -/
theorem copyDir_ignores_dst_mkdir_failure :
    copyDir mkdirFailOracle ['/', 'd'] ['/', 's'] (.dir 493 .nil)
      = (.ok, [])
    ∧ (RunRes.ok, ([] : List DstOp))
        ≠ (.err (.mkdirFailed ['/', 'd']), ([] : List DstOp)) := by
  constructor
  · rfl
  · decide

/-- The callback consults the oracle only at the joined destination paths
of the visited entry, never at the destination root itself. -/
theorem walkFn_oracle_congr (o o' : Oracle) (s : FsTree) (dst src p : Str)
    (i : FInfo)
    (hmk : ∀ q, q ≠ dst → o.mkdirFails q = o'.mkdirFails q)
    (hop : o.openFails = o'.openFails)
    (hcr : o.createFails = o'.createFails)
    (hne : trimPrefix p src ≠ [] → joinPath dst (trimPrefix p src) ≠ dst) :
    walkFn o s dst src p (some i) none = walkFn o' s dst src p (some i) none := by
  simp only [walkFn]
  by_cases h : trimPrefix p src = []
  · simp [h]
  · simp only [h, if_neg h, hmk _ (hne h), hop, hcr]

/-- C3 (amended): `copyDir` ignores the outcome of creating the destination
root in every case — whether or not `os.Mkdir(dst, 0755)` succeeds, the
walk proceeds and the returned result is unchanged, so `copyDir` never
fails with a destination-creation error (a failure surfaces, if at all,
only through the walk's own entries). -/
theorem copyDir_result_ignores_dst_creation (o o' : Oracle) (dst src : Str)
    (t : FsTree)
    (hmk : ∀ q, q ≠ dst → o.mkdirFails q = o'.mkdirFails q)
    (hop : o.openFails = o'.openFails)
    (hcr : o.createFails = o'.createFails)
    (havoid : ∀ q ∈ walkModel src t, trimPrefix q.1 src ≠ [] →
      joinPath dst (trimPrefix q.1 src) ≠ dst) :
    (copyDir o dst src t).1 = (copyDir o' dst src t).1 := by
  simp only [copyDir]
  suffices h : ∀ visits, (∀ q ∈ visits, trimPrefix q.1 src ≠ [] →
      joinPath dst (trimPrefix q.1 src) ≠ dst) →
      runVisits o t dst src visits = runVisits o' t dst src visits by
    rw [h _ havoid]
  intro visits
  induction visits with
  | nil => intro _; rfl
  | cons q rest ih =>
    intro hv
    rcases q with ⟨p, i⟩
    have hq := hv (p, i) (List.mem_cons_self _ _)
    have hr := ih (fun r hr => hv r (List.mem_cons_of_mem _ hr))
    simp only [runVisits, walkFn_oracle_congr o o' t dst src p i hmk hop hcr hq, hr]

/-- C3 witness: an oracle failing only the destination-root `os.Mkdir`
yields the same result as the unobstructed one on the one-file tree. -/
theorem copyDir_result_ignores_dst_creation_witness :
    (∀ q : Str, q ≠ ['/', 'd'] →
      (Oracle.mk (fun x => x == ['/', 'd']) (fun _ => false)
        (fun _ => false)).mkdirFails q = okOracle.mkdirFails q)
    ∧ (∀ q ∈ walkModel ['/', 's'] exTreeA, trimPrefix q.1 ['/', 's'] ≠ [] →
        joinPath ['/', 'd'] (trimPrefix q.1 ['/', 's']) ≠ ['/', 'd'])
    ∧ (copyDir (Oracle.mk (fun x => x == ['/', 'd']) (fun _ => false)
        (fun _ => false)) ['/', 'd'] ['/', 's'] exTreeA).1
      = (copyDir okOracle ['/', 'd'] ['/', 's'] exTreeA).1 :=
  ⟨fun q hq => by simp [okOracle, hq],
    by decide,
    copyDir_result_ignores_dst_creation _ okOracle ['/', 'd'] ['/', 's'] exTreeA
      (fun q hq => by simp [okOracle, hq]) rfl rfl (by decide)⟩

/-- A well-formed file name: nonempty, without path separators, and not one
of the special names `.` and `..` (what a real directory entry can be). -/
def validNameB (n : Str) : Bool :=
  decide (n ≠ []) && decide ('/' ∉ n) && decide (n ≠ ['.']) && decide (n ≠ ['.', '.'])

/-- Unpacking of `validNameB`. -/
theorem validNameB_spec {n : Str} (h : validNameB n = true) :
    n ≠ [] ∧ '/' ∉ n ∧ n ≠ ['.'] ∧ n ≠ ['.', '.'] := by
  simp only [validNameB, Bool.and_eq_true, decide_eq_true_eq] at h
  exact ⟨h.1.1.1, h.1.1.2, h.1.2, h.2⟩

/-- Splitting never yields the empty component list. -/
theorem splitSlash_ne_nil : ∀ cs : Str, splitSlash cs ≠ []
  | [] => by simp [splitSlash]
  | c :: rest => by
    simp only [splitSlash]
    cases h : splitSlash rest with
    | nil => simp
    | cons hh tt => by_cases hc : c = '/' <;> simp [hc]

/-- A leading slash contributes a leading empty component. -/
theorem splitSlash_cons_slash (cs : Str) :
    splitSlash ('/' :: cs) = [] :: splitSlash cs := by
  simp only [splitSlash]
  cases h : splitSlash cs with
  | nil => exact absurd h (splitSlash_ne_nil cs)
  | cons hh tt => simp

/-- Splitting distributes over concatenation at a separator. -/
theorem splitSlash_append : ∀ xs ys : Str,
    splitSlash (xs ++ '/' :: ys) = splitSlash xs ++ splitSlash ys
  | [], ys => by rw [List.nil_append, splitSlash_cons_slash]; rfl
  | x :: xs, ys => by
    have ih := splitSlash_append xs ys
    cases h : splitSlash xs with
    | nil => exact absurd h (splitSlash_ne_nil xs)
    | cons hh tt => by_cases hx : x = '/' <;> simp [splitSlash, ih, h, hx]

/-- A slash-free string is a single component. -/
theorem splitSlash_no_slash : ∀ cs : Str, '/' ∉ cs → splitSlash cs = [cs]
  | [], _ => rfl
  | c :: rest, h => by
    rw [List.mem_cons, not_or] at h
    obtain ⟨h1, h2⟩ := h
    have hc : c ≠ '/' := fun he => h1 he.symm
    have ih := splitSlash_no_slash rest h2
    simp [splitSlash, ih, hc]

/-- The component pass ignores an empty component anywhere in its input. -/
theorem cleanAux_skip_empty (r : Bool) :
    ∀ (l1 : List Str) (acc l2 : List Str),
      cleanAux r acc (l1 ++ [] :: l2) = cleanAux r acc (l1 ++ l2)
  | [], acc, l2 => by simp [cleanAux]
  | c :: l1, acc, l2 => by
    simp only [List.cons_append, cleanAux]
    by_cases h1 : c = [] ∨ c = ['.']
    · simp only [if_pos h1]
      exact cleanAux_skip_empty r l1 acc l2
    · simp only [if_neg h1]
      by_cases h2 : c = ['.', '.']
      · simp only [if_pos h2]
        cases acc with
        | nil =>
          cases r with
          | false =>
            rw [if_neg (by decide : ¬((false : Bool) = true))]
            exact cleanAux_skip_empty false l1 [['.', '.']] l2
          | true =>
            rw [if_pos rfl]
            exact cleanAux_skip_empty true l1 [] l2
        | cons a as =>
          by_cases ha : a = ['.', '.']
          · simp only [if_pos ha]
            exact cleanAux_skip_empty r l1 _ l2
          · simp only [if_neg ha]
            exact cleanAux_skip_empty r l1 as l2
      · simp only [if_neg h2]
        exact cleanAux_skip_empty r l1 (c :: acc) l2

/-- On well-formed components the pass is the identity (up to flushing the
accumulator). -/
theorem cleanAux_valid (r : Bool) :
    ∀ (comps : List Str) (acc : List Str),
      (∀ c ∈ comps, validNameB c = true) →
      cleanAux r acc comps = acc.reverse ++ comps
  | [], acc, _ => by simp [cleanAux]
  | c :: cs, acc, h => by
    obtain ⟨hne, _, hdot, hdd⟩ := validNameB_spec (h c (List.mem_cons_self c cs))
    have h1 : ¬(c = [] ∨ c = ['.']) := by
      rintro (h' | h')
      · exact hne h'
      · exact hdot h'
    have ih := cleanAux_valid r cs (c :: acc)
      (fun x hx => h x (List.mem_cons_of_mem _ hx))
    simp only [cleanAux, if_neg h1, if_neg hdd, ih]
    simp

/-- The canonical absolute path with the given components (`/a/b/...`). -/
def mkAbs (comps : List Str) : Str := '/' :: joinComps comps

/-- Unfolding of `joinComps` on two or more components. -/
theorem joinComps_cons_cons (c d : Str) (rest : List Str) :
    joinComps (c :: d :: rest) = c ++ '/' :: joinComps (d :: rest) := rfl

/-- Splitting inverts joining on slash-free components. -/
theorem splitSlash_joinComps : ∀ comps : List Str, comps ≠ [] →
    (∀ c ∈ comps, '/' ∉ c) → splitSlash (joinComps comps) = comps
  | [], h, _ => absurd rfl h
  | [c], _, h => by
    rw [show joinComps [c] = c from rfl]
    exact splitSlash_no_slash c (h c (List.mem_singleton.mpr rfl))
  | c :: d :: rest, _, h => by
    have ih := splitSlash_joinComps (d :: rest) (List.cons_ne_nil _ _)
      (fun x hx => h x (List.mem_cons_of_mem _ hx))
    rw [joinComps_cons_cons, splitSlash_append,
      splitSlash_no_slash c (h c (List.mem_cons_self _ _)), ih]
    rfl

/-- Joining distributes over list concatenation. -/
theorem joinComps_append : ∀ a b : List Str, a ≠ [] → b ≠ [] →
    joinComps (a ++ b) = joinComps a ++ '/' :: joinComps b
  | [], _, h, _ => absurd rfl h
  | [c], b, _, hb => by
    cases b with
    | nil => exact absurd rfl hb
    | cons d rest => rfl
  | c :: d :: rest, b, _, hb => by
    have ih := joinComps_append (d :: rest) b (List.cons_ne_nil _ _) hb
    simp only [List.cons_append, joinComps_cons_cons]
    rw [show (d :: rest) ++ b = d :: (rest ++ b) from rfl] at ih
    rw [ih]
    simp

/-- Extending an absolute path by components appends them after a slash. -/
theorem mkAbs_append (comps r : List Str) (hc : comps ≠ []) (hr : r ≠ []) :
    mkAbs (comps ++ r) = mkAbs comps ++ '/' :: joinComps r := by
  simp [mkAbs, joinComps_append comps r hc hr]

/-- The component pass ignores a leading empty component. -/
theorem cleanAux_cons_empty (r : Bool) (acc l : List Str) :
    cleanAux r acc ([] :: l) = cleanAux r acc l := by
  simpa using cleanAux_skip_empty r [] acc l

/-- Unfolding of `cleanL` on a rooted (slash-leading) path. -/
theorem cleanL_rooted (cs : Str) (hh : cs.head? = some '/') :
    cleanL cs = '/' :: joinComps (cleanAux true [] (splitSlash cs)) := by
  have hne : cs ≠ [] := by
    intro h
    rw [h] at hh
    cases hh
  simp [cleanL, hne, hh]

/-- Cleaning a canonical absolute path with well-formed components is the
identity. -/
theorem cleanL_mkAbs (comps : List Str)
    (h : ∀ c ∈ comps, validNameB c = true) :
    cleanL (mkAbs comps) = mkAbs comps := by
  cases comps with
  | nil => rfl
  | cons c rest =>
    have hh : (mkAbs (c :: rest)).head? = some '/' := rfl
    rw [cleanL_rooted _ hh]
    rw [show splitSlash (mkAbs (c :: rest))
        = [] :: splitSlash (joinComps (c :: rest)) from splitSlash_cons_slash _]
    rw [splitSlash_joinComps (c :: rest) (List.cons_ne_nil _ _)
      (fun x hx => (validNameB_spec (h x hx)).2.1)]
    rw [cleanAux_cons_empty true [] (c :: rest),
      cleanAux_valid true (c :: rest) [] h]
    rfl

/-- Unfolding of `joinPath` when the first argument is nonempty. -/
theorem joinPath_ne_nil_left (a b : Str) (ha : a ≠ []) :
    joinPath a b = cleanL (a ++ '/' :: b) := by
  simp [joinPath, ha]

/-- Cleaning collapses a doubled slash. -/
theorem cleanL_dedup_slash (a r : Str) (ha : a ≠ []) :
    cleanL (a ++ '/' :: '/' :: r) = cleanL (a ++ '/' :: r) := by
  have h1 : a ++ '/' :: '/' :: r ≠ [] := by simp
  have h2 : a ++ '/' :: r ≠ [] := by simp
  have hh : (a ++ '/' :: '/' :: r).head? = (a ++ '/' :: r).head? := by
    cases a with
    | nil => exact absurd rfl ha
    | cons x xs => simp
  have hca : ∀ rb : Bool, cleanAux rb [] (splitSlash (a ++ '/' :: '/' :: r))
      = cleanAux rb [] (splitSlash (a ++ '/' :: r)) := by
    intro rb
    rw [splitSlash_append a ('/' :: r), splitSlash_cons_slash,
      splitSlash_append a r]
    exact cleanAux_skip_empty rb (splitSlash a) [] (splitSlash r)
  simp only [cleanL, if_neg h1, if_neg h2, hh, hca]

/-- A leading slash on the second `joinPath` argument is irrelevant. -/
theorem joinPath_dedup (dst r : Str) (hd : dst ≠ []) :
    joinPath dst ('/' :: r) = joinPath dst r := by
  rw [joinPath_ne_nil_left _ _ hd, joinPath_ne_nil_left _ _ hd]
  exact cleanL_dedup_slash dst r hd

/-- Joining a well-formed name under a canonical absolute path appends a
component. -/
theorem joinPath_mkAbs (comps : List Str) (n : Str)
    (hc : ∀ c ∈ comps, validNameB c = true) (hn : validNameB n = true) :
    joinPath (mkAbs comps) n = mkAbs (comps ++ [n]) := by
  have hvn := validNameB_spec hn
  have hvliste : ∀ c ∈ comps ++ [n], validNameB c = true := by
    intro x hx
    rcases List.mem_append.mp hx with h | h
    · exact hc x h
    · rw [List.mem_singleton.mp h]
      exact hn
  cases comps with
  | nil =>
    have hne : mkAbs [] ≠ [] := by simp [mkAbs]
    rw [joinPath_ne_nil_left _ _ hne]
    rw [show mkAbs [] ++ '/' :: n = '/' :: '/' :: n from rfl]
    rw [cleanL_rooted ('/' :: '/' :: n : Str) rfl, splitSlash_cons_slash,
      splitSlash_cons_slash, splitSlash_no_slash n hvn.2.1]
    rw [cleanAux_cons_empty true [] ([] :: [n]), cleanAux_cons_empty true [] [n]]
    rw [cleanAux_valid true [n] []
      (fun x hx => by rw [List.mem_singleton.mp hx]; exact hn)]
    rfl
  | cons c rest =>
    have hne : mkAbs (c :: rest) ≠ [] := by simp [mkAbs]
    rw [joinPath_ne_nil_left _ _ hne]
    rw [show mkAbs (c :: rest) ++ '/' :: n = mkAbs ((c :: rest) ++ [n]) from
      (mkAbs_append (c :: rest) [n] (List.cons_ne_nil _ _)
        (List.cons_ne_nil _ _)).symm]
    exact cleanL_mkAbs _ hvliste

/-- Joining a well-formed name under a canonical absolute path with a
trailing separator yields the same result as without it. -/
theorem joinPath_mkAbs_slash (comps : List Str) (n : Str)
    (hc : ∀ c ∈ comps, validNameB c = true) (hn : validNameB n = true) :
    joinPath (mkAbs comps ++ ['/']) n = mkAbs (comps ++ [n]) := by
  have hne : mkAbs comps ++ ['/'] ≠ [] := by simp
  have hne2 : mkAbs comps ≠ [] := by simp [mkAbs]
  rw [joinPath_ne_nil_left _ _ hne]
  rw [show (mkAbs comps ++ ['/']) ++ '/' :: n = mkAbs comps ++ '/' :: '/' :: n
    by simp]
  rw [cleanL_dedup_slash _ _ hne2]
  rw [← joinPath_ne_nil_left _ _ hne2]
  exact joinPath_mkAbs comps n hc hn

/-- Trimming a realized prefix drops it. -/
theorem trimPrefix_append (a b : Str) : trimPrefix (a ++ b) a = b := by
  have h : a.isPrefixOf (a ++ b) = true := by
    rw [List.isPrefixOf_iff_prefix]
    exact List.prefix_append a b
  simp [trimPrefix, h, List.drop_left]

/-- Trimming a string by itself leaves nothing. -/
theorem trimPrefix_self (a : Str) : trimPrefix a a = [] := by
  simpa using trimPrefix_append a []

mutual
/-- Tree all of whose directory entry names are well-formed file names. -/
def validTreeB : FsTree → Bool
  | .file _ _ => true
  | .dir _ es => validEntriesB es
/-- Entry-list counterpart of `validTreeB`. -/
def validEntriesB : FsEntries → Bool
  | .nil => true
  | .cons n t rest => validNameB n && validTreeB t && validEntriesB rest
end

/-- List-form counterpart of `validEntriesB`. -/
def validListB (l : List (Str × FsTree)) : Bool :=
  l.all (fun e => validNameB e.1 && validTreeB e.2)

/-- Rebuilding entries from a list preserves validity. -/
theorem validEntriesB_entriesOfList : ∀ l : List (Str × FsTree),
    validEntriesB (entriesOfList l) = validListB l
  | [] => rfl
  | (n, t) :: rest => by
    simp only [entriesOfList, validEntriesB, validEntriesB_entriesOfList rest,
      validListB, List.all_cons]

/-- Validity of an entry list is invariant under permutation. -/
theorem validListB_perm {l l' : List (Str × FsTree)} (h : l.Perm l')
    (hv : validListB l = true) : validListB l' = true := by
  simp only [validListB, List.all_eq_true] at hv ⊢
  intro e he
  exact hv e (h.mem_iff.mpr he)

instance : Nonempty FsTree := ⟨.file [] 0⟩

instance : Nonempty FsEntries := ⟨.nil⟩

mutual
/-- Sorting a valid tree keeps it valid. -/
theorem sortTree_valid : ∀ t : FsTree, validTreeB t = true →
    validTreeB (sortTree t) = true
  | .file _ _, _ => rfl
  | .dir m es, h => by
    have h1 : validListB (sortEntriesList es) = true := sortEntriesList_valid es h
    have h2 : validListB (sortByName (sortEntriesList es)) = true :=
      validListB_perm (sortByName_perm _).symm h1
    simp only [sortTree, validTreeB, validEntriesB_entriesOfList]
    exact h2
termination_by t _ => sizeOf t
/-- Sorting valid entries keeps them valid (list form). -/
theorem sortEntriesList_valid : ∀ es : FsEntries, validEntriesB es = true →
    validListB (sortEntriesList es) = true
  | .nil, _ => rfl
  | .cons n t rest, h => by
    have h' : validNameB n = true ∧ validTreeB t = true
        ∧ validEntriesB rest = true := by
      simpa [validEntriesB, Bool.and_eq_true, and_assoc] using h
    have ht := sortTree_valid t h'.2.1
    have hr := sortEntriesList_valid rest h'.2.2
    simp only [sortEntriesList, validListB, List.all_cons, h'.1, ht,
      Bool.and_self, Bool.true_and]
    simpa [validListB] using hr
termination_by es _ => sizeOf es
end

/-- Joining well-formed components never yields the empty string. -/
theorem joinComps_ne_nil : ∀ r : List Str, r ≠ [] →
    (∀ c ∈ r, validNameB c = true) → joinComps r ≠ []
  | [], h, _ => absurd rfl h
  | [c], _, h => by
    have := (validNameB_spec (h c (List.mem_singleton.mpr rfl))).1
    simpa [joinComps] using this
  | c :: d :: rest, _, h => by
    have hc := (validNameB_spec (h c (List.mem_cons_self _ _))).1
    simp [joinComps_cons_cons, hc]

mutual
/-- Every visit of a walk rooted at a canonical absolute path is either the
root itself or a canonical absolute extension of it by valid components. -/
theorem walkVisits_shape : ∀ (t : FsTree) (cs : List Str),
    validTreeB t = true → (∀ c ∈ cs, validNameB c = true) →
    ∀ pr ∈ walkVisits (mkAbs cs) t,
      pr.1 = mkAbs cs ∨ ∃ r, r ≠ [] ∧ (∀ c ∈ r, validNameB c = true)
        ∧ pr.1 = mkAbs (cs ++ r)
  | .file _ _, cs, _, _, pr, hpr => by
    left
    rw [List.mem_singleton.mp hpr]
  | .dir m es, cs, ht, hcs, pr, hpr => by
    simp only [walkVisits] at hpr
    rcases List.mem_cons.mp hpr with h | h
    · left; rw [h]
    · right
      exact walkVisitsEntries_shape es cs ht hcs pr h
termination_by t _ _ _ _ _ => sizeOf t

/-- Every visit below a directory's entries is a strict canonical absolute
extension. -/
theorem walkVisitsEntries_shape : ∀ (es : FsEntries) (cs : List Str),
    validEntriesB es = true → (∀ c ∈ cs, validNameB c = true) →
    ∀ pr ∈ walkVisitsEntries (mkAbs cs) es,
      ∃ r, r ≠ [] ∧ (∀ c ∈ r, validNameB c = true) ∧ pr.1 = mkAbs (cs ++ r)
  | .nil, _, _, _, pr, hpr => by simp [walkVisitsEntries] at hpr
  | .cons n t rest, cs, h, hcs, pr, hpr => by
    have h' : validNameB n = true ∧ validTreeB t = true
        ∧ validEntriesB rest = true := by
      simpa [validEntriesB, Bool.and_eq_true, and_assoc] using h
    have hcs' : ∀ c ∈ cs ++ [n], validNameB c = true := by
      intro x hx
      rcases List.mem_append.mp hx with hx | hx
      · exact hcs x hx
      · rw [List.mem_singleton.mp hx]; exact h'.1
    simp only [walkVisitsEntries] at hpr
    rcases List.mem_append.mp hpr with hmem | hmem
    · rw [joinPath_mkAbs cs n hcs h'.1] at hmem
      rcases walkVisits_shape t (cs ++ [n]) h'.2.1 hcs' pr hmem with
        he | ⟨r, hr1, hr2, hr3⟩
      · exact ⟨[n], by simp,
          fun x hx => by rw [List.mem_singleton.mp hx]; exact h'.1, he⟩
      · refine ⟨[n] ++ r, by simp, ?_, ?_⟩
        · intro x hx
          rcases List.mem_append.mp hx with hx | hx
          · rw [List.mem_singleton.mp hx]; exact h'.1
          · exact hr2 x hx
        · rw [hr3, List.append_assoc]
    · exact walkVisitsEntries_shape rest cs h'.2.2 hcs pr hmem
termination_by es _ _ _ _ _ => sizeOf es
end

/-- The top-level children of a directory are joined to the same paths for
the trailing-separator and no-trailing-separator forms of the root. -/
theorem walkVisitsEntries_src_slash (comps : List Str)
    (hc : ∀ c ∈ comps, validNameB c = true) :
    ∀ es : FsEntries, validEntriesB es = true →
      walkVisitsEntries (mkAbs comps ++ ['/']) es
        = walkVisitsEntries (mkAbs comps) es
  | .nil, _ => rfl
  | .cons n t rest, h => by
    have h' : validNameB n = true ∧ validTreeB t = true
        ∧ validEntriesB rest = true := by
      simpa [validEntriesB, Bool.and_eq_true, and_assoc] using h
    have hj : joinPath (mkAbs comps ++ ['/']) n = joinPath (mkAbs comps) n := by
      rw [joinPath_mkAbs_slash comps n hc h'.1, joinPath_mkAbs comps n hc h'.1]
    simp only [walkVisitsEntries, hj,
      walkVisitsEntries_src_slash comps hc rest h'.2.2]

/-- Processing visits that all sit strictly below the source root gives the
same results and writes for the trailing-separator and plain forms of the
source: the relative paths differ only by a leading slash, which
`filepath.Join` collapses. -/
theorem runVisits_src_slash (s : FsTree) (dst : Str) (comps : List Str)
    (hd : dst ≠ []) (hcne : comps ≠ []) :
    ∀ visits : List (Str × FInfo),
      (∀ pr ∈ visits, ∃ r, r ≠ [] ∧ (∀ c ∈ r, validNameB c = true)
        ∧ pr.1 = mkAbs (comps ++ r)) →
      runVisits okOracle s dst (mkAbs comps) visits
        = runVisits okOracle s dst (mkAbs comps ++ ['/']) visits
  | [], _ => rfl
  | (p, i) :: rest, h => by
    obtain ⟨r, hr1, hr2, hr3⟩ := h (p, i) (List.mem_cons_self _ _)
    replace hr3 : p = mkAbs (comps ++ r) := hr3
    have ihrest := runVisits_src_slash s dst comps hd hcne rest
      (fun q hq => h q (List.mem_cons_of_mem _ hq))
    have hjc : joinComps r ≠ [] := joinComps_ne_nil r hr1 hr2
    have hsplit : mkAbs (comps ++ r) = mkAbs comps ++ '/' :: joinComps r :=
      mkAbs_append comps r hcne hr1
    have ht1 : trimPrefix p (mkAbs comps) = '/' :: joinComps r := by
      rw [hr3, hsplit]
      exact trimPrefix_append _ _
    have ht2 : trimPrefix p (mkAbs comps ++ ['/']) = joinComps r := by
      rw [hr3, hsplit, show mkAbs comps ++ '/' :: joinComps r
        = (mkAbs comps ++ ['/']) ++ joinComps r by simp]
      exact trimPrefix_append _ _
    have hjoin : joinPath dst ('/' :: joinComps r) = joinPath dst (joinComps r) :=
      joinPath_dedup dst (joinComps r) hd
    have hne1 : ('/' :: joinComps r : Str) ≠ [] := by simp
    simp only [runVisits, walkFn_okOracle, ht1, ht2, if_neg hne1, if_neg hjc,
      hjoin, ihrest]

/-- C6: the source-root entry of the walk (empty relative path) creates no
destination entry whatever the oracle, the `FileInfo`, or the walk error
argument are — so the destination gains no spurious entry for the source's
own root name — and a full unobstructed `copyDir` produces the identical
result and destination writes whether the source path carries a trailing
separator or not. -/
theorem copyDir_trailing_sep_and_root_skip (dst : Str) (comps : List Str)
    (t : FsTree) (hd : dst ≠ []) (hcne : comps ≠ [])
    (hcv : ∀ c ∈ comps, validNameB c = true) (htv : validTreeB t = true) :
    copyDir okOracle dst (mkAbs comps) t
      = copyDir okOracle dst (mkAbs comps ++ ['/']) t
    ∧ (∀ (o : Oracle) (s : FsTree) (info : Option FInfo) (werr : Option Unit),
        walkFn o s dst (mkAbs comps) (mkAbs comps) info werr = .ok []) := by
  constructor
  · have hstv := sortTree_valid t htv
    simp only [copyDir, walkModel]
    cases hst : sortTree t with
    | file c m =>
      simp [walkVisits, runVisits, walkFn_okOracle, trimPrefix_self]
    | dir m es =>
      have hesv : validEntriesB es = true := by
        rw [hst] at hstv
        simpa [validTreeB] using hstv
      have hentries := walkVisitsEntries_src_slash comps hcv es hesv
      have hrun := runVisits_src_slash t dst comps hd hcne
        (walkVisitsEntries (mkAbs comps) es)
        (walkVisitsEntries_shape es comps hesv hcv)
      simp only [walkVisits, hentries, runVisits, walkFn_okOracle,
        trimPrefix_self, hrun]
  · intro o s info werr
    simp [walkFn, trimPrefix_self]

/-- C6 witness: on the two-level tree with dst `/d` and source `/s`, the
trailing-separator run coincides with the plain run, and the root entry of
the walk contributes nothing. -/
theorem copyDir_trailing_sep_and_root_skip_witness :
    (['/', 'd'] : Str) ≠ []
    ∧ ([['s']] : List Str) ≠ []
    ∧ (∀ c ∈ [[('s' : Char)]], validNameB c = true)
    ∧ validTreeB exTreeA = true
    ∧ copyDir okOracle ['/', 'd'] (mkAbs [['s']]) exTreeA
        = copyDir okOracle ['/', 'd'] (mkAbs [['s']] ++ ['/']) exTreeA
    ∧ walkFn okOracle exTreeA ['/', 'd'] (mkAbs [['s']]) (mkAbs [['s']])
        none (some ()) = .ok [] :=
  ⟨by decide, by decide, by decide, by rfl,
    (copyDir_trailing_sep_and_root_skip ['/', 'd'] [['s']] exTreeA
      (by decide) (by decide) (by decide) (by rfl)).1,
    (copyDir_trailing_sep_and_root_skip ['/', 'd'] [['s']] exTreeA
      (by decide) (by decide) (by decide) (by rfl)).2 okOracle exTreeA none (some ())⟩

end Rat
